import Mathlib

/-
Verification of the genetic-algorithm basis selector in `src/basisga.py`
(`main`, lines 32-141).  The Python floats of the program are embedded as
exact rationals (`ℚ`) except for the eigenvector rescaling, where the
exponent `**0.5` forces real arithmetic (`ℝ`, `Real.rpow`).  External
collaborators imported from `mc2hessian` (`LocalPDF`, `comp_hess`,
`invcov_sqrtinvcov`) are not part of this repository's sources and are
abstracted as opaque-looking plain functions supplied by the environment.
-/

/-- Mutation-count rule of `basisga.py` lines 74-77: `nmut = 4` by default,
`g <= 0.3` gives 1, `0.3 < g <= 0.6` gives 2, `0.6 < g <= 0.7` gives 3. -/
def nmut (g : ℚ) : ℕ :=
  if g ≤ 3/10 then 1
  else if 3/10 < g ∧ g ≤ 6/10 then 2
  else if 6/10 < g ∧ g ≤ 7/10 then 3
  else 4

/-- One pass of the inner mutation loop body, line 84: `indextmp[pos] = val`. -/
def mutateOnce (indextmp : List ℕ) (val pos : ℕ) : List ℕ :=
  indextmp.set pos val

/-- The whole mutation block, lines 78-84, parameterized by the sequence of
random draws `(val, pos)` the loop consumes (one pair per mutation). -/
def mutateAll (indextmp : List ℕ) (choices : List (ℕ × ℕ)) : List ℕ :=
  choices.foldl (fun l c => mutateOnce l c.1 c.2) indextmp

/-- What the random draws of lines 81-83 guarantee for each `(val, pos)` pair:
the rejection sampler of lines 79-82 only stops at a `val` that is not in the
current `indextmp`, `numpy.random.randint(1, N+1)` yields `1 ≤ val ≤ N`, and
`numpy.random.randint(0, nrep)` yields a valid position. -/
def validChoices (N : ℕ) : List ℕ → List (ℕ × ℕ) → Bool
  | _, [] => true
  | l, c :: cs =>
      (decide (c.1 ∉ l) && decide (1 ≤ c.1) && decide (c.1 ≤ N)
          && decide (c.2 < l.length))
        && validChoices N (mutateOnce l c.1 c.2) cs

/-- C6: for every uniform draw `g`, the number of single-position mutations is
1 exactly when `g ≤ 0.3`, 2 exactly when `0.3 < g ≤ 0.6`, 3 exactly when
`0.6 < g ≤ 0.7`, and 4 exactly when `g > 0.7`. -/
theorem nmut_distribution (g : ℚ) :
    (nmut g = 1 ↔ g ≤ 3/10) ∧
    (nmut g = 2 ↔ 3/10 < g ∧ g ≤ 6/10) ∧
    (nmut g = 3 ↔ 6/10 < g ∧ g ≤ 7/10) ∧
    (nmut g = 4 ↔ 7/10 < g) := by
  unfold nmut
  split_ifs with h1 h2 h3
  · refine ⟨⟨fun _ => h1, fun _ => rfl⟩, ?_, ?_, ?_⟩
    · exact ⟨fun h => by omega, fun h => absurd h1 (not_le.mpr h.1)⟩
    · exact ⟨fun h => by omega, fun h => absurd h1 (not_le.mpr (by linarith [h.1]))⟩
    · exact ⟨fun h => by omega, fun h => absurd h1 (not_le.mpr (by linarith))⟩
  · refine ⟨⟨fun h => by omega, fun h => absurd h h1⟩,
      ⟨fun _ => h2, fun _ => rfl⟩, ?_, ?_⟩
    · exact ⟨fun h => by omega, fun h => absurd h2.2 (not_le.mpr (by linarith [h.1]))⟩
    · exact ⟨fun h => by omega, fun h => absurd h2.2 (not_le.mpr (by linarith))⟩
  · refine ⟨⟨fun h => by omega, fun h => absurd h h1⟩,
      ⟨fun h => by omega, fun h => absurd h h2⟩,
      ⟨fun _ => h3, fun _ => rfl⟩, ?_⟩
    · exact ⟨fun h => by omega, fun h => absurd h3.2 (not_le.mpr (by linarith))⟩
  · push_neg at h1 h2 h3
    refine ⟨⟨fun h => by omega, fun h => absurd h (not_le.mpr h1)⟩,
      ⟨fun h => by omega, fun h => absurd (h2 h.1) (not_lt.mpr h.2)⟩,
      ⟨fun h => by omega, fun h => absurd (h3 h.1) (not_lt.mpr h.2)⟩,
      ⟨fun _ => h3 (h2 h1), fun _ => rfl⟩⟩

/-- C7 counterexample: the mutation step applied to an input that already holds
a duplicate can return a list that still holds a duplicate, even though every
random draw satisfies the constraints the code enforces (here: input
`[1, 1, 2]` with `N = 3`, one mutation writing the fresh value 3 at position
2 returns `[1, 1, 3]`). -/
theorem mutation_duplicate_counterexample :
    validChoices 3 [1, 1, 2] [(3, 2)] = true ∧
    mutateAll [1, 1, 2] [(3, 2)] = [1, 1, 3] ∧
    ¬ (mutateAll [1, 1, 2] [(3, 2)]).Nodup := by
  decide

/-- C7 (amended): if the input index list is duplicate-free with entries in
`[1, N]`, then after any sequence of mutations whose draws satisfy the
constraints the code enforces, the result is still duplicate-free, has the
same length, and all entries lie in `[1, N]`. -/
theorem mutation_preserves_invariants (N : ℕ) (l : List ℕ) (cs : List (ℕ × ℕ))
    (hnd : l.Nodup) (hmem : ∀ e ∈ l, 1 ≤ e ∧ e ≤ N)
    (hv : validChoices N l cs = true) :
    (mutateAll l cs).Nodup ∧ (mutateAll l cs).length = l.length ∧
      ∀ e ∈ mutateAll l cs, 1 ≤ e ∧ e ≤ N := by
  induction cs generalizing l with
  | nil => exact ⟨hnd, rfl, hmem⟩
  | cons c cs ih =>
    rw [validChoices, Bool.and_eq_true, Bool.and_eq_true, Bool.and_eq_true,
      Bool.and_eq_true, decide_eq_true_eq, decide_eq_true_eq, decide_eq_true_eq,
      decide_eq_true_eq] at hv
    obtain ⟨⟨⟨⟨hnotin, h1⟩, hN⟩, _⟩, hrest⟩ := hv
    have hnd' : (mutateOnce l c.1 c.2).Nodup := hnd.set hnotin
    have hmem' : ∀ e ∈ mutateOnce l c.1 c.2, 1 ≤ e ∧ e ≤ N := by
      intro e he
      rcases List.mem_or_eq_of_mem_set he with h | h
      · exact hmem e h
      · exact h ▸ ⟨h1, hN⟩
    have hlen : (mutateOnce l c.1 c.2).length = l.length := List.length_set l c.2 c.1
    have hstep : mutateAll l (c :: cs) = mutateAll (mutateOnce l c.1 c.2) cs := rfl
    obtain ⟨ha, hb, hc⟩ := ih (mutateOnce l c.1 c.2) hnd' hmem' hrest
    exact ⟨hstep ▸ ha, by rw [hstep, hb, hlen], hstep ▸ hc⟩

/-- C7 witness: concrete run of the amended invariant at `N = 5`,
input `[1, 2, 3]`, two mutations. -/
theorem mutation_preserves_invariants_witness :
    (mutateAll [1, 2, 3] [(4, 0), (5, 2)]).Nodup ∧
    (mutateAll [1, 2, 3] [(4, 0), (5, 2)]).length = 3 :=
  ⟨(mutation_preserves_invariants 5 [1, 2, 3] [(4, 0), (5, 2)] (by decide)
      (by decide) (by decide)).1,
   (mutation_preserves_invariants 5 [1, 2, 3] [(4, 0), (5, 2)] (by decide)
      (by decide) (by decide)).2.1⟩

/-- Environment of the search loop: the parts of one loop pass that live
outside this repository's sources and the random stream.  `mutate rng index`
stands for lines 70-85 (copy of `index`, the mutation block, `pdf.rebase`)
and returns the mutated copy together with the advanced random-stream
position; `degenerate` stands for the `numpy.allclose` test of line 104 on
the data obtained by rebasing to the candidate; `score` stands for the whole
evaluation of lines 88-120 (design matrix, least squares, covariance,
eigenvectors, `est` accumulation) as a pure function of the candidate. -/
structure GAEnv where
  mutate : ℕ → List ℕ → List ℕ × ℕ
  degenerate : List ℕ → Bool
  score : List ℕ → ℚ

/-- Mutable state of the `while` loop of `basisga.py`: the iteration counter
`nite` (line 52), the best score `berf` (line 54), the accepted index list
`index` (line 41), the working copy `indextmp` (line 42), and the position
in the random stream fixed by `numpy.random.seed(0)` (line 55). -/
structure GAState where
  nite : ℕ
  berf : ℚ
  index : List ℕ
  indextmp : List ℕ
  rng : ℕ
  deriving DecidableEq

/-- State right before the loop: lines 41-42, 52, 54-55.  `berf` starts at
the float literal `1e8`, exactly the rational `100000000`. -/
def initGA (index0 : List ℕ) : GAState :=
  { nite := 0, berf := 100000000, index := index0, indextmp := index0, rng := 0 }

/-- The candidate one loop pass evaluates, with the resulting random-stream
position: lines 68-85 mutate a copy of `index` only when `nite > 0`;
otherwise `indextmp` is left as it is and no randomness is consumed. -/
def candidateGA (env : GAEnv) (s : GAState) : List ℕ × ℕ :=
  if 0 < s.nite then env.mutate s.rng s.index else (s.indextmp, s.rng)

/-- One pass of the `while` body, lines 66-128.  A failed `allclose` test
hits `continue` (line 106): `berf`, `index` and `nite` are untouched and no
score is computed.  Otherwise `est` is compared to `berf` (line 122): on
strict improvement both `berf` and `index` are replaced (lines 123-124);
either way `nite` is incremented (line 128). -/
def stepGA (env : GAEnv) (s : GAState) : GAState :=
  let m := candidateGA env s
  if env.degenerate m.1 then
    { s with indextmp := m.1, rng := m.2 }
  else
    let est := env.score m.1
    if est < s.berf then
      { nite := s.nite + 1, berf := est, index := m.1, indextmp := m.1, rng := m.2 }
    else
      { s with nite := s.nite + 1, indextmp := m.1, rng := m.2 }

/-- The `while (nite < nitemax)` loop of line 66, with explicit fuel counting
the passes of the body (the loop itself need not terminate, see C9). -/
def runGA (env : GAEnv) (nitemax : ℕ) : GAState → ℕ → GAState
  | s, 0 => s
  | s, fuel + 1 => if s.nite < nitemax then runGA env nitemax (stepGA env s) fuel else s

/-- A concrete environment used to instantiate the loop theorems: mutation
swaps nothing and advances the stream, the degeneracy test constantly
returns `b`, the score is constantly `q`. -/
def envConst (b : Bool) (q : ℚ) : GAEnv :=
  { mutate := fun r l => (l, r + 1), degenerate := fun _ => b, score := fun _ => q }

/-- Helper: one pass never increases `berf`. -/
theorem stepGA_berf_le (env : GAEnv) (s : GAState) : (stepGA env s).berf ≤ s.berf := by
  unfold stepGA
  by_cases hd : env.degenerate (candidateGA env s).1
  · simp [hd]
  · by_cases hlt : env.score (candidateGA env s).1 < s.berf
    · simp [hd, hlt]
      exact le_of_lt hlt
    · simp [hd, hlt]

/-- Helper: the loop never increases `berf`, whatever the fuel. -/
theorem runGA_berf_le (env : GAEnv) (nitemax : ℕ) (s : GAState) (fuel : ℕ) :
    (runGA env nitemax s fuel).berf ≤ s.berf := by
  induction fuel generalizing s with
  | zero => exact le_refl _
  | succ n ih =>
    unfold runGA
    by_cases h : s.nite < nitemax
    · simp only [h, if_true]
      exact le_trans (ih (stepGA env s)) (stepGA_berf_le env s)
    · simp [h]

/-- Helper: closed form of one pass when the degeneracy test fails. -/
theorem stepGA_degenerate (env : GAEnv) (s : GAState)
    (h : env.degenerate (candidateGA env s).1 = true) :
    stepGA env s =
      { s with
        indextmp := (candidateGA env s).1
        rng := (candidateGA env s).2 } := by
  unfold stepGA
  simp only [h, if_true]

/-- Helper: closed form of one pass on acceptance. -/
theorem stepGA_accept (env : GAEnv) (s : GAState)
    (h : env.degenerate (candidateGA env s).1 = false)
    (hlt : env.score (candidateGA env s).1 < s.berf) :
    stepGA env s =
      { nite := s.nite + 1
        berf := env.score (candidateGA env s).1
        index := (candidateGA env s).1
        indextmp := (candidateGA env s).1
        rng := (candidateGA env s).2 } := by
  unfold stepGA
  simp only [h, Bool.false_eq_true, if_false, hlt, if_true]

/-- Helper: closed form of one pass on rejection. -/
theorem stepGA_reject (env : GAEnv) (s : GAState)
    (h : env.degenerate (candidateGA env s).1 = false)
    (hge : ¬ env.score (candidateGA env s).1 < s.berf) :
    stepGA env s =
      { s with
        nite := s.nite + 1
        indextmp := (candidateGA env s).1
        rng := (candidateGA env s).2 } := by
  unfold stepGA
  simp only [h, Bool.false_eq_true, if_false, hge, if_false]

/-- C1 counterexample: the sentinel of line 54 is the finite float `1e8`, not
positive infinity, so a first candidate whose (finite) score equals `2e8` is
NOT accepted at iteration 0: `berf` stays `1e8` instead of becoming the
candidate's score. -/
theorem sentinel_counterexample :
    (envConst false 200000000).degenerate [1, 2, 3] = false ∧
    (stepGA (envConst false 200000000) (initGA [1, 2, 3])).berf ≠ 200000000 ∧
    (stepGA (envConst false 200000000) (initGA [1, 2, 3])).berf = 100000000 := by
  decide

/-- C1 (amended): at INIT the best score is the finite sentinel `1e8`; when
the initial candidate passes the degeneracy test, it is accepted at
iteration 0 exactly when its score is strictly below `1e8` (its score then
becomes the best-so-far score and the accepted list becomes the candidate),
while a first score at or above `1e8` leaves the best score at the
sentinel. -/
theorem sentinel_first_acceptance (env : GAEnv) (idx : List ℕ)
    (h : env.degenerate idx = false) :
    (initGA idx).berf = 100000000 ∧
    (env.score idx < 100000000 →
      (stepGA env (initGA idx)).berf = env.score idx ∧
      (stepGA env (initGA idx)).index = idx) ∧
    (100000000 ≤ env.score idx →
      (stepGA env (initGA idx)).berf = 100000000) := by
  have hc : candidateGA env (initGA idx) = (idx, 0) := rfl
  have h' : env.degenerate (candidateGA env (initGA idx)).1 = false := by
    rw [hc]; exact h
  refine ⟨rfl, fun hlt => ?_, fun hge => ?_⟩
  · have hlt' : env.score (candidateGA env (initGA idx)).1 < (initGA idx).berf := by
      rw [hc]; exact hlt
    rw [stepGA_accept env (initGA idx) h' hlt']
    exact ⟨by rw [hc], by rw [hc]⟩
  · have hge' : ¬ env.score (candidateGA env (initGA idx)).1 < (initGA idx).berf := by
      rw [hc]; exact not_lt.mpr hge
    rw [stepGA_reject env (initGA idx) h' hge']
    rfl

/-- C1 witness: the amended statement at the constant environment with
score 5 and initial list `[1, 2]`. -/
theorem sentinel_first_acceptance_witness :
    (initGA [1, 2]).berf = 100000000 ∧
    ((envConst false 5).score [1, 2] < 100000000 →
      (stepGA (envConst false 5) (initGA [1, 2])).berf = (envConst false 5).score [1, 2] ∧
      (stepGA (envConst false 5) (initGA [1, 2])).index = [1, 2]) ∧
    (100000000 ≤ (envConst false 5).score [1, 2] →
      (stepGA (envConst false 5) (initGA [1, 2])).berf = 100000000) :=
  sentinel_first_acceptance (envConst false 5) [1, 2] rfl

/-- C3: when the degeneracy test fails the candidate, the pass leaves the
best score, the accepted index list and the iteration counter unchanged
(the degenerate draw consumes no iteration budget), and the pass does not
depend on the score function at all (no score is computed). -/
theorem degenerate_discard_atomic (env : GAEnv) (s : GAState)
    (h : env.degenerate (candidateGA env s).1 = true) :
    (stepGA env s).berf = s.berf ∧
    (stepGA env s).index = s.index ∧
    (stepGA env s).nite = s.nite ∧
    ∀ f : List ℕ → ℚ, stepGA { env with score := f } s = stepGA env s := by
  have hs := stepGA_degenerate env s h
  refine ⟨by rw [hs], by rw [hs], by rw [hs], fun f => ?_⟩
  have h' : GAEnv.degenerate { env with score := f }
      (candidateGA { env with score := f } s).1 = true := h
  rw [stepGA_degenerate { env with score := f } s h', hs]
  rfl

/-- C3 witness: the atomic discard at the always-degenerate constant
environment and the state right after INIT with list `[1, 2]`. -/
theorem degenerate_discard_atomic_witness :
    (stepGA (envConst true 0) (initGA [1, 2])).berf = (initGA [1, 2]).berf ∧
    (stepGA (envConst true 0) (initGA [1, 2])).index = (initGA [1, 2]).index ∧
    (stepGA (envConst true 0) (initGA [1, 2])).nite = (initGA [1, 2]).nite ∧
    stepGA { envConst true 0 with score := fun _ => 99 } (initGA [1, 2]) =
      stepGA (envConst true 0) (initGA [1, 2]) :=
  ⟨(degenerate_discard_atomic (envConst true 0) (initGA [1, 2]) rfl).1,
   (degenerate_discard_atomic (envConst true 0) (initGA [1, 2]) rfl).2.1,
   (degenerate_discard_atomic (envConst true 0) (initGA [1, 2]) rfl).2.2.1,
   (degenerate_discard_atomic (envConst true 0) (initGA [1, 2]) rfl).2.2.2 (fun _ => 99)⟩

/-- C4: when the candidate passes the degeneracy test, it is accepted exactly
when its score strictly improves on the best score: on acceptance both the
best score and the accepted index list are updated to the candidate's, on
rejection neither changes; and across any run of the loop the best score is
non-increasing. -/
theorem accept_iff_strict_improvement (env : GAEnv) (s : GAState)
    (h : env.degenerate (candidateGA env s).1 = false) :
    (env.score (candidateGA env s).1 < s.berf →
      (stepGA env s).berf = env.score (candidateGA env s).1 ∧
      (stepGA env s).index = (candidateGA env s).1) ∧
    (¬ env.score (candidateGA env s).1 < s.berf →
      (stepGA env s).berf = s.berf ∧ (stepGA env s).index = s.index) ∧
    ∀ (e : GAEnv) (nmax : ℕ) (t : GAState) (fuel : ℕ),
      (runGA e nmax t fuel).berf ≤ t.berf := by
  refine ⟨fun hlt => ?_, fun hge => ?_,
    fun e nmax t fuel => runGA_berf_le e nmax t fuel⟩
  · rw [stepGA_accept env s h hlt]
    exact ⟨rfl, rfl⟩
  · rw [stepGA_reject env s h hge]
    exact ⟨rfl, rfl⟩

/-- C4 witness: acceptance at the constant environment with score 7 from the
INIT state with list `[1, 2]`, and the monotonicity conjunct instantiated at
budget 5 and fuel 10. -/
theorem accept_iff_strict_improvement_witness :
    (stepGA (envConst false 7) (initGA [1, 2])).berf = 7 ∧
    (stepGA (envConst false 7) (initGA [1, 2])).index = [1, 2] ∧
    (runGA (envConst false 7) 5 (initGA [1, 2]) 10).berf ≤ (initGA [1, 2]).berf :=
  ⟨((accept_iff_strict_improvement (envConst false 7) (initGA [1, 2]) rfl).1 (by decide)).1,
   ((accept_iff_strict_improvement (envConst false 7) (initGA [1, 2]) rfl).1 (by decide)).2,
   (accept_iff_strict_improvement (envConst false 7) (initGA [1, 2]) rfl).2.2
     (envConst false 7) 5 (initGA [1, 2]) 10⟩

/-- C8: at iteration 0 the pass evaluates the untouched `indextmp` (for the
INIT state, the caller-provided list itself, with the random stream at its
seeded start) and consumes no randomness, while every pass with `nite ≥ 1`
builds its candidate by mutating a copy of the accepted list `index`. -/
theorem iteration_zero_baseline (env : GAEnv) (s : GAState) (h : s.nite = 0) :
    candidateGA env s = (s.indextmp, s.rng) ∧
    (stepGA env s).rng = s.rng ∧
    (∀ idx : List ℕ, candidateGA env (initGA idx) = (idx, 0)) ∧
    ∀ t : GAState, 0 < t.nite → candidateGA env t = env.mutate t.rng t.index := by
  have hc : candidateGA env s = (s.indextmp, s.rng) := by
    rw [candidateGA, h]
    simp
  refine ⟨hc, ?_, fun idx => rfl, fun t ht => by rw [candidateGA, if_pos ht]⟩
  cases hd : env.degenerate (candidateGA env s).1 with
  | true => rw [stepGA_degenerate env s hd]; simp [hc]
  | false =>
    by_cases hlt : env.score (candidateGA env s).1 < s.berf
    · rw [stepGA_accept env s hd hlt]; simp [hc]
    · rw [stepGA_reject env s hd hlt]; simp [hc]

/-- C8 witness: the baseline pass at the constant environment with score 7
and the INIT state with list `[4, 5]`. -/
theorem iteration_zero_baseline_witness :
    candidateGA (envConst false 7) (initGA [4, 5]) =
      ((initGA [4, 5]).indextmp, (initGA [4, 5]).rng) ∧
    (stepGA (envConst false 7) (initGA [4, 5])).rng = (initGA [4, 5]).rng ∧
    (∀ idx : List ℕ, candidateGA (envConst false 7) (initGA idx) = (idx, 0)) ∧
    ∀ t : GAState, 0 < t.nite →
      candidateGA (envConst false 7) t = (envConst false 7).mutate t.rng t.index :=
  iteration_zero_baseline (envConst false 7) (initGA [4, 5]) rfl

/-- C9: if the degeneracy test fails on the caller-provided initial list, the
loop never terminates: the INIT state is a fixed point of the pass (no
mutation happens at `nite = 0`, no randomness is consumed, and the discard
leaves everything unchanged), so for every amount of fuel the `while`
condition `nite < nitemax` still holds and the loop re-evaluates the
identical initial list forever. -/
theorem degenerate_init_nontermination (env : GAEnv) (idx : List ℕ)
    (nitemax : ℕ) (h : env.degenerate idx = true) (hpos : 0 < nitemax) :
    ∀ fuel : ℕ, runGA env nitemax (initGA idx) fuel = initGA idx ∧
      (runGA env nitemax (initGA idx) fuel).nite < nitemax := by
  have hc : candidateGA env (initGA idx) = (idx, 0) := rfl
  have h' : env.degenerate (candidateGA env (initGA idx)).1 = true := by
    rw [hc]; exact h
  have hfix : stepGA env (initGA idx) = initGA idx := by
    rw [stepGA_degenerate env (initGA idx) h', hc]
    rfl
  intro fuel
  induction fuel with
  | zero => exact ⟨rfl, hpos⟩
  | succ n ih =>
    unfold runGA
    rw [if_pos (show (initGA idx).nite < nitemax from hpos), hfix]
    exact ih

/-- C9 witness: the always-degenerate constant environment with initial list
`[1, 2]`, budget 5, followed for 100 passes. -/
theorem degenerate_init_nontermination_witness :
    runGA (envConst true 0) 5 (initGA [1, 2]) 100 = initGA [1, 2] ∧
    (runGA (envConst true 0) 5 (initGA [1, 2]) 100).nite < 5 :=
  degenerate_init_nontermination (envConst true 0) [1, 2] 5 rfl (by decide) 100

/-- C10: the pseudorandom seed is the constant 0 of line 55, not an input:
the INIT state pins the random-stream position to 0 independently of the
input list, and two runs given equal environments (identical input data and
configuration) and equal initial lists return equal best scores and equal
accepted index lists, for every budget and every amount of fuel. -/
theorem run_determinism (env1 env2 : GAEnv) (idx1 idx2 : List ℕ)
    (nitemax fuel : ℕ) (henv : env1 = env2) (hidx : idx1 = idx2) :
    (initGA idx1).rng = 0 ∧
    (runGA env1 nitemax (initGA idx1) fuel).berf
        = (runGA env2 nitemax (initGA idx2) fuel).berf ∧
    (runGA env1 nitemax (initGA idx1) fuel).index
        = (runGA env2 nitemax (initGA idx2) fuel).index := by
  subst henv
  subst hidx
  exact ⟨rfl, rfl, rfl⟩

/-- C10 witness: two runs at the constant environment with score 7, initial
list `[3, 1]`, budget 4, fuel 6. -/
theorem run_determinism_witness :
    (initGA [3, 1]).rng = 0 ∧
    (runGA (envConst false 7) 4 (initGA [3, 1]) 6).berf
        = (runGA (envConst false 7) 4 (initGA [3, 1]) 6).berf ∧
    (runGA (envConst false 7) 4 (initGA [3, 1]) 6).index
        = (runGA (envConst false 7) 4 (initGA [3, 1]) 6).index :=
  run_determinism (envConst false 7) (envConst false 7) [3, 1] [3, 1] 4 6 rfl rfl

/-- Data consumed by the score accumulation of lines 113-120: the grid sizes
`fl.n` and `xgrid.n`, the validity mask `pdf.mask`, the prior standard
deviation `prior_std` (line 58), and the projected estimate
`t1 = comp_hess(nrep, vec, pdf.xfxQ, f, x, cv)` of line 119 abstracted as a
function of the grid point (`comp_hess` is external to this repository). -/
structure ScoreData where
  nf : ℕ
  nx : ℕ
  mask : ℕ → ℕ → Bool
  std : ℕ → ℕ → ℚ
  hess : ℕ → ℕ → ℚ

/-- The `est` accumulation of lines 113-120: loop over all grid points, skip
points the mask excludes, and add `abs((t1 - t0) / t0)` only when
`t0 != 0`. -/
def computeERF (d : ScoreData) : ℚ :=
  ∑ f ∈ Finset.range d.nf, ∑ x ∈ Finset.range d.nx,
    if d.mask f x then
      if d.std f x ≠ 0 then |(d.hess f x - d.std f x) / d.std f x| else 0
    else 0

/-- C5: the score is the unweighted sum, over exactly the mask-valid grid
points whose prior standard deviation is nonzero, of the absolute relative
deviation; a point with zero prior standard deviation, and a point excluded
by the mask, contributes exactly 0 whatever the projected estimate there
(replacing the estimate everywhere outside the contributing points changes
nothing). -/
theorem erf_sum_valid_nonzero_std (d : ScoreData) (h' : ℕ → ℕ → ℚ)
    (hag : ∀ f x, d.mask f x = true → d.std f x ≠ 0 → h' f x = d.hess f x) :
    computeERF { d with hess := h' } = computeERF d ∧
    computeERF d = ∑ f ∈ Finset.range d.nf, ∑ x ∈ Finset.range d.nx,
      if d.mask f x = true ∧ d.std f x ≠ 0 then
        |(d.hess f x - d.std f x) / d.std f x| else 0 := by
  constructor
  · unfold computeERF
    refine Finset.sum_congr rfl fun f _ => Finset.sum_congr rfl fun x _ => ?_
    by_cases hm : d.mask f x = true
    · by_cases hs : d.std f x ≠ 0
      · simp [hm, hs, hag f x hm hs]
      · simp [hm, hs]
    · simp [hm]
  · unfold computeERF
    refine Finset.sum_congr rfl fun f _ => Finset.sum_congr rfl fun x _ => ?_
    by_cases hm : d.mask f x = true
    · by_cases hs : d.std f x ≠ 0
      · simp [hm, hs]
      · simp [hm, hs]
    · simp [hm]

/-- Concrete score data for the C5 witness: a 2-by-2 grid where the mask
excludes point (1,1) and the prior standard deviation vanishes at (0,0). -/
def scoreDataEx : ScoreData :=
  { nf := 2
    nx := 2
    mask := fun f x => f == 0 || x == 0
    std := fun f x => if f = 0 ∧ x = 0 then 0 else 2
    hess := fun _ _ => 3 }

/-- Alternative estimates for the C5 witness: they agree with `scoreDataEx`
on the contributing points and differ wildly everywhere else. -/
def hessEx : ℕ → ℕ → ℚ := fun f x =>
  if scoreDataEx.mask f x = true ∧ scoreDataEx.std f x ≠ 0 then 3 else 42

/-- C5 witness: the sum characterization and the zero-contribution property
at the concrete 2-by-2 score data. -/
theorem erf_sum_valid_nonzero_std_witness :
    computeERF { scoreDataEx with hess := hessEx } = computeERF scoreDataEx ∧
    computeERF scoreDataEx =
      ∑ f ∈ Finset.range scoreDataEx.nf, ∑ x ∈ Finset.range scoreDataEx.nx,
        if scoreDataEx.mask f x = true ∧ scoreDataEx.std f x ≠ 0 then
          |(scoreDataEx.hess f x - scoreDataEx.std f x) / scoreDataEx.std f x|
        else 0 :=
  erf_sum_valid_nonzero_std scoreDataEx hessEx
    (fun f x h1 h2 => by
      show (if scoreDataEx.mask f x = true ∧ scoreDataEx.std f x ≠ 0 then (3 : ℚ)
            else 42) = scoreDataEx.hess f x
      rw [if_pos ⟨h1, h2⟩]
      rfl)

/-- Line 110 of `basisga.py`:
`for i in range(len(vec)): vec[i] /= eigenvalues[i]**0.5`.
In numpy, `vec[i]` is ROW `i` of the matrix returned by `numpy.linalg.eigh`
(whose eigenvectors are its COLUMNS), so this divides row `i` elementwise by
the square root of eigenvalue `i`. -/
noncomputable def rescaleEigvecs (n : ℕ) (eig : Fin n → ℝ)
    (vec : Matrix (Fin n) (Fin n) ℝ) : Matrix (Fin n) (Fin n) ℝ :=
  Matrix.of fun i j => vec i j / eig i ^ ((1 : ℝ) / 2)

/-- The operation C2 describes, following its words: each eigenvector, i.e.
each COLUMN `j` of the eigenvector matrix, rescaled elementwise by the
inverse square root of its own corresponding eigenvalue. -/
noncomputable def rescaleEigvecsClaim (n : ℕ) (eig : Fin n → ℝ)
    (vec : Matrix (Fin n) (Fin n) ℝ) : Matrix (Fin n) (Fin n) ℝ :=
  Matrix.of fun i j => vec i j / eig j ^ ((1 : ℝ) / 2)

/-- C2 counterexample: with eigenvalues `(1, 4)` and eigenvector matrix
`[[0, 1], [1, 0]]`, the code's row rescaling leaves entry `(0, 1)` at `1`
while rescaling the columns (the eigenvectors) would make it `1/2`, so the
two operations differ. -/
theorem rescale_rows_counterexample :
    rescaleEigvecs 2 ![1, 4] (Matrix.of ![![0, 1], ![1, 0]]) ≠
      rescaleEigvecsClaim 2 ![1, 4] (Matrix.of ![![0, 1], ![1, 0]]) := by
  intro hEq
  have h01 := congrArg (fun M : Matrix (Fin 2) (Fin 2) ℝ => M 0 1) hEq
  simp only [rescaleEigvecs, rescaleEigvecsClaim, Matrix.of_apply,
    Matrix.cons_val_zero, Matrix.cons_val_one, Matrix.head_cons] at h01
  have h4 : (4 : ℝ) ^ ((1 : ℝ) / 2) = 2 := by
    rw [show (4 : ℝ) = 2 ^ (2 : ℕ) by norm_num, ← Real.rpow_natCast 2 2,
      ← Real.rpow_mul (by norm_num : (0 : ℝ) ≤ 2)]
    norm_num
  rw [Real.one_rpow, h4] at h01
  norm_num at h01

/-- C2 (amended): after the symmetric eigendecomposition of the inverse
coefficient covariance, each ROW `i` of the eigenvector matrix (not each
eigenvector, which is a column) is rescaled elementwise by the inverse
square root of the eigenvalue of the same position: the result equals the
left multiplication by the diagonal matrix of inverse square roots of the
eigenvalues, and this row-rescaled matrix is what line 119 passes to the
score evaluator `comp_hess`. -/
theorem rescale_scales_rows (n : ℕ) (eig : Fin n → ℝ)
    (vec : Matrix (Fin n) (Fin n) ℝ) :
    rescaleEigvecs n eig vec =
      Matrix.diagonal (fun i => (eig i ^ ((1 : ℝ) / 2))⁻¹) * vec := by
  ext i j
  rw [Matrix.diagonal_mul]
  simp [rescaleEigvecs, div_eq_mul_inv, mul_comm]
